import Mathlib

/-!
Verification of the transcript word-timestamp demo (fuzzy phrase matching,
segment resolution, caption windowing, SRT timestamp parsing).

Modelling conventions:
* Python floats are modelled as exact rationals (`ℚ`); every numeric literal
  appearing in the code (`0.5`, `1000`, `80`, ...) is exactly representable.
* Python strings are Lean `String`s; where Python string methods are involved
  in reasoning (`str.replace`, `str.split`), the text is modelled as `List Char`
  and the methods are translated directly (single-character `replace` is a
  character map, `split(sep)` splits at every separator occurrence).
* The rapidfuzz similarity functions (`fuzz.ratio`, `fuzz.partial_ratio`,
  `fuzz.token_sort_ratio`) are an external library capability; they are
  modelled as an opaque-but-pure `Scorer` parameter with one field per
  function.  All theorems hold for every scorer.
* Python exceptions (`IndexError`) are modelled with `Except String`.
* Python's stable `list.sort(key=...)` is modelled by a stable insertion
  sort (`pySort`), inserting each element after all earlier elements whose
  key is less than or equal, which reproduces the unique stable result.
-/

/-- Model of Python `str.lower()` (restricted to the basic-latin mapping of
`Char.toLower`, which covers all inputs exercised here). -/
def pyLower (s : String) : String :=
  ⟨s.data.map Char.toLower⟩

/-- Auxiliary for `pySplitWs`: accumulates the current (reversed) token. -/
def splitWsAux : List Char → List Char → List (List Char)
  | cur, [] => if cur.isEmpty then [] else [cur.reverse]
  | cur, c :: cs =>
    if c.isWhitespace then
      if cur.isEmpty then splitWsAux [] cs
      else cur.reverse :: splitWsAux [] cs
    else splitWsAux (c :: cur) cs

/-- Model of Python `str.split()` with no argument: split on runs of
whitespace, discarding empty tokens. -/
def pySplitWs (s : String) : List String :=
  (splitWsAux [] s.data).map (fun cs => ⟨cs⟩)

/-- Model of Python `' '.join(parts)`. -/
def pyJoin : List String → String
  | [] => ""
  | p :: ps => ps.foldl (fun acc q => acc ++ " " ++ q) p

/-- A transcript word: `{text, start (ms), end (ms)}` as delivered by the
transcription service (`word.text`, `word.start`, `word.end`).  The Python
attribute `end` is a Lean keyword, hence the field name `end_`. -/
structure Word where
  text : String
  start : Int
  end_ : Int
deriving DecidableEq, Repr

/-- An occurrence / segment tuple `(start_time, end_time, text, score)`
as built by the searchers (times in seconds, score 0-100). -/
structure Occ where
  start_s : ℚ
  end_s : ℚ
  text : String
  score : ℚ
deriving DecidableEq, Repr

/-- The pluggable similarity capability standing for rapidfuzz:
`ratioFull` models `fuzz.ratio`, `ratioSub` models `fuzz.partial_ratio`,
`ratioTok` models `fuzz.token_sort_ratio`. -/
structure Scorer where
  ratioFull : String → String → ℚ
  ratioSub : String → String → ℚ
  ratioTok : String → String → ℚ

/-- `FuzzySearcher.compare_phrases` (fuzzy.py lines 9-15): both phrases are
lower-cased and the three rapidfuzz ratios are returned. -/
def compare_phrases (S : Scorer) (phrase1 phrase2 : String) : ℚ × ℚ × ℚ :=
  (S.ratioFull (pyLower phrase1) (pyLower phrase2),
   S.ratioSub (pyLower phrase1) (pyLower phrase2),
   S.ratioTok (pyLower phrase1) (pyLower phrase2))

/-- `best_score = max(ratio, partial_ratio, token_ratio)` (fuzzy.py line 37);
Python's ternary `max` is the left-nested binary maximum. -/
def best_score (S : Scorer) (p c : String) : ℚ :=
  max (max (compare_phrases S p c).1 (compare_phrases S p c).2.1)
    (compare_phrases S p c).2.2

/-- Number of loop iterations of `range(len(words) - k + 1)`: Python's
`range` of a negative integer is empty, captured by `Int.toNat`. -/
def numWindows (len k : ℕ) : ℕ :=
  ((len : ℤ) - k + 1).toNat

/-- The loop body of `FuzzySearcher.find_phrase_occurrences` (fuzzy.py
lines 29-48), iterated over the window start indices.  For each index `i`
the window `words[i:i+k]` is joined with single spaces, scored, and appended
when the score reaches the threshold; `sequence_words[0]` / `[-1]` are
`head?` / `getLast?`, raising `IndexError` (modelled as `Except.error`)
on an empty window. -/
def scanWindows (S : Scorer) (sp : String) (k : ℕ) (t : ℚ) (words : List Word) :
    List ℕ → Except String (List Occ)
  | [] => .ok []
  | i :: is =>
    let seq := (words.drop i).take k
    let text := pyJoin (seq.map Word.text)
    let score := best_score S sp text
    if t ≤ score then
      match seq.head?, seq.getLast? with
      | some w0, some wl =>
        (scanWindows S sp k t words is).map
          (fun rest => ⟨(w0.start : ℚ) / 1000, (wl.end_ : ℚ) / 1000, text, score⟩ :: rest)
      | _, _ => .error "IndexError: list index out of range"
    else scanWindows S sp k t words is

/-- Stable insertion of `x` into `l`: `x` goes after every element `y` with
`le y x`.  With `le y x = (key y ≤ key x)` this reproduces Python's stable
ascending-by-key sort position. -/
def insort (le : Occ → Occ → Bool) (x : Occ) : List Occ → List Occ
  | [] => [x]
  | y :: ys => if le y x then y :: insort le x ys else x :: y :: ys

/-- Model of Python's stable `list.sort(key=...)`: left-to-right stable
insertion. -/
def pySort (le : Occ → Occ → Bool) (l : List Occ) : List Occ :=
  l.foldl (fun acc x => insort le x acc) []

/-- The comparison corresponding to `key=lambda x: (-x[3])`: `a` may stay
before `b` iff `a`'s score is at least `b`'s. -/
def leScore (a b : Occ) : Bool :=
  decide (b.score ≤ a.score)

/-- The membership test inside `_filter_overlapping_occurrences`
(fuzzy.py lines 77-81): an already-kept occurrence within 0.5 s whose score
is at least `occ`'s. -/
def similar_exists (filtered : List Occ) (occ : Occ) : Bool :=
  filtered.any fun existing =>
    decide (|existing.start_s - occ.start_s| < 1 / 2) && decide (occ.score ≤ existing.score)

/-- `FuzzySearcher._filter_overlapping_occurrences` (fuzzy.py lines 71-84):
greedy left-to-right keep/drop over the (already sorted) list. -/
def filter_overlapping (occs : List Occ) : List Occ :=
  occs.foldl
    (fun filtered occ => if similar_exists filtered occ then filtered else filtered ++ [occ]) []

/-- `FuzzySearcher.find_phrase_occurrences` (fuzzy.py lines 17-52): lower-case
the query, tokenize, scan all windows, sort by score descending (stable),
then filter overlapping occurrences. -/
def find_phrase_occurrences (S : Scorer) (words : List Word) (search_phrase : String)
    (similarity_threshold : ℚ) : Except String (List Occ) :=
  let sp := pyLower search_phrase
  let k := (pySplitWs sp).length
  match scanWindows S sp k similarity_threshold words (List.range (numWindows words.length k)) with
  | .error e => .error e
  | .ok occs => .ok (filter_overlapping (pySort leScore occs))

/-- The segment tuple built on acceptance of a start/end pair
(fuzzy.py lines 98-108): words whose `start` lies in
`[start_time*1000, end_time*1000]` joined with spaces, score averaged. -/
def get_segment (words : List Word) (s e : Occ) : Occ :=
  let segment_words := words.filter fun w =>
    decide (s.start_s * 1000 ≤ (w.start : ℚ)) && decide ((w.start : ℚ) ≤ e.end_s * 1000)
  ⟨s.start_s, e.end_s, pyJoin (segment_words.map Word.text), (s.score + e.score) / 2⟩

/-- Inner loop of `_get_best_segment` (fuzzy.py lines 95-105): first end
occurrence with `end_time > start_time` wins. -/
def best_segment_inner (words : List Word) (s : Occ) : List Occ → Option Occ
  | [] => none
  | e :: es => if s.start_s < e.end_s then some (get_segment words s e)
               else best_segment_inner words s es

/-- `FuzzySearcher._get_best_segment` (fuzzy.py lines 86-108): outer loop over
start occurrences, returning the first accepted pair's segment. -/
def get_best_segment (words : List Word) : List Occ → List Occ → Option Occ
  | [], _ => none
  | s :: ss, es =>
    match best_segment_inner words s es with
    | some seg => some seg
    | none => get_best_segment words ss es

/-- `FuzzySearcher.find_text_segment` (fuzzy.py lines 54-69): run the phrase
search for both anchors, return `none` if either is empty, else the best
segment. -/
def find_text_segment (S : Scorer) (words : List Word) (start_text end_text : String)
    (similarity_threshold : ℚ) : Except String (Option Occ) :=
  match find_phrase_occurrences S words start_text similarity_threshold with
  | .error e => .error e
  | .ok start_occurrences =>
    match find_phrase_occurrences S words end_text similarity_threshold with
    | .error e => .error e
    | .ok end_occurrences =>
      if start_occurrences.isEmpty || end_occurrences.isEmpty then .ok none
      else .ok (get_best_segment words start_occurrences end_occurrences)

/-- Candidate list as described by the spec (section 4.1), written from the
spec's words for the refinement claim C1: one candidate per window
`i = 0 .. len(words)-k`, text the single-space join of the window's word
texts, score the maximum of the three ratios on the lower-cased query and
candidate, kept iff `score ≥ threshold`, with
`start_s = words[i].start/1000` and `end_s = words[i+k-1].end/1000`. -/
def spec_candidates (S : Scorer) (words : List Word) (query : String) (t : ℚ) : List Occ :=
  let q := pyLower query
  let k := (pySplitWs q).length
  (List.range (numWindows words.length k)).filterMap fun i =>
    match words[i]?, words[i + k - 1]? with
    | some w0, some wl =>
      let candidate := pyJoin (((words.drop i).take k).map Word.text)
      let score := max (max (S.ratioFull q (pyLower candidate)) (S.ratioSub q (pyLower candidate)))
        (S.ratioTok q (pyLower candidate))
      if t ≤ score then some ⟨(w0.start : ℚ) / 1000, (wl.end_ : ℚ) / 1000, candidate, score⟩
      else none
    | _, _ => none

/-- The caption chunking loop of `process_video_with_highlights`
(youtube_handler.py lines 126-129): `for i in range(0, len(words),
window_size)` with `words[i:i+window_size]`, skipping empty slices
(`if not window_words: continue`).  `range(0, len, step)` for `step ≥ 1`
visits `ceil(len/step)` indices `0, step, 2*step, ...`. -/
def caption_windows {α : Type} (words : List α) (window_size : ℕ) : List (List α) :=
  (List.range ((words.length + window_size - 1) / window_size)).filterMap fun j =>
    let window_words := (words.drop (j * window_size)).take window_size
    if window_words.isEmpty then none else some window_words

/-- Recursive form of the same chunking (repeatedly take `ws`, drop `ws`),
used to reason about `caption_windows`. -/
def chunksRec {α : Type} (ws : ℕ) : List α → List (List α)
  | [] => []
  | x :: xs => (x :: xs.take (ws - 1)) :: chunksRec ws (xs.drop (ws - 1))
termination_by l => l.length
decreasing_by
  simp only [List.length_cons]
  have := List.length_drop (ws - 1) xs
  omega

/-- One caption cue of the highlight schedule: chunk and word indices, the
chunk's display interval and the word's active (highlight) interval, all in
seconds relative to clip start. -/
structure Cue where
  chunk_index : ℕ
  word_index : ℕ
  window_start : ℚ
  window_end : ℚ
  word_start : ℚ
  word_end : ℚ
deriving DecidableEq, Repr

/-- The per-chunk cue emission of `process_video_with_highlights`
(youtube_handler.py lines 132-177): `window_start/window_end` from the
chunk's first and last word, and for each enumerated word its own
active interval, all shifted by `clip_start_ms` and divided by 1000. -/
def cuesOfChunk (clip_start : Int) (ci : ℕ) (chunk : List Word) : List Cue :=
  match chunk.head?, chunk.getLast? with
  | some first, some last =>
    chunk.enum.map fun p =>
      { chunk_index := ci
        word_index := p.1
        window_start := ((first.start - clip_start : ℤ) : ℚ) / 1000
        window_end := ((last.end_ - clip_start : ℤ) : ℚ) / 1000
        word_start := ((p.2.start - clip_start : ℤ) : ℚ) / 1000
        word_end := ((p.2.end_ - clip_start : ℤ) : ℚ) / 1000 }
  | _, _ => []

/-- The temporal schedule emitted by `process_video_with_highlights`
(youtube_handler.py lines 122-177): `clip_start_ms = words[0]['start']` is
read before the chunk loop, so an empty word list raises `IndexError`
(modelled as `Except.error`); otherwise every chunk contributes its cues. -/
def process_schedule (words : List Word) (window_size : ℕ) : Except String (List Cue) :=
  match words.head? with
  | none => .error "IndexError: list index out of range"
  | some w0 =>
    .ok ((caption_windows words window_size).enum.flatMap fun p =>
      cuesOfChunk w0.start p.1 p.2)

/-- Model of Python `timestamp.replace(',', ':')` for single characters:
a character-wise map. -/
def pyReplaceChar (old new : Char) (s : List Char) : List Char :=
  s.map fun c => if c = old then new else c

/-- Model of Python `str.split(sep)` with an explicit separator: split at
every occurrence, keeping empty parts. -/
def pySplitChar (sep : Char) : List Char → List (List Char)
  | [] => [[]]
  | c :: cs =>
    if c = sep then [] :: pySplitChar sep cs
    else
      match pySplitChar sep cs with
      | [] => [[c]]
      | p :: ps => (c :: p) :: ps

/-- Model of Python `int(s)` restricted to non-empty decimal digit strings
(the inputs in scope; Python additionally accepts signs and whitespace). -/
def pyInt : List Char → Option Nat
  | [] => none
  | cs => if cs.all Char.isDigit then some (cs.foldl (fun n c => n * 10 + (c.toNat - 48)) 0)
          else none

/-- `parse_srt_timestamp` (time_utils.py lines 18-31): replace `,` by `:`,
split on `:`, convert the four parts with `int`, and combine
`hours*3600000 + minutes*60000 + seconds*1000 + milliseconds`.  A missing
part is an `IndexError`, a non-numeric part a `ValueError`; both are
modelled as `none`. -/
def parse_srt_timestamp (timestamp : List Char) : Option Nat :=
  let time_parts := pySplitChar ':' (pyReplaceChar ',' ':' timestamp)
  match (time_parts[0]?).bind pyInt, (time_parts[1]?).bind pyInt,
      (time_parts[2]?).bind pyInt, (time_parts[3]?).bind pyInt with
  | some hours, some minutes, some seconds, some milliseconds =>
    some (hours * 3600000 + minutes * 60000 + seconds * 1000 + milliseconds)
  | _, _, _, _ => none

/-- Numeric value of a decimal digit string (most significant first). -/
def digitsVal (cs : List Char) : Nat :=
  cs.foldl (fun n c => n * 10 + (c.toNat - 48)) 0

namespace YT

/-- A transcript entry of the youtube-transcript-api variant:
`{'text': ..., 'start': ..., 'duration': ...}`; `duration` is read with
`entry.get('duration', 0)`, hence optional. -/
structure PyEntry where
  text : String
  start : ℚ
  duration : Option ℚ
deriving Repr

/-- A word-timing record built by `create_word_mapping`
(youtube-transcript-api/transcript.py lines 85-97). -/
structure WordMapping where
  word : String
  entry_start : ℚ
  word_start : ℚ
  duration : ℚ
  total_words : ℕ
  position : ℕ
  weight : ℚ
deriving Repr

/-- `estimate_word_duration` (youtube-transcript-api/transcript.py lines
39-62): consonant count over the lower-cased word (characters outside
`'aeiou '`), a length-based base weight (`0.7` below 3 characters, else
`1.0 + (len-3)*0.1`), and a consonant-density adjustment. -/
def estimate_word_duration (word : String) : ℚ :=
  let consonants : ℚ :=
    (((pyLower word).data.filter fun c => !(c ∈ ['a', 'e', 'i', 'o', 'u', ' '])).length : ℚ)
  let char_count : ℚ := (word.length : ℚ)
  let base_weight : ℚ := if word.length ≤ 2 then 7 / 10 else 1 + ((word.length : ℚ) - 3) * (1 / 10)
  let consonant_weight : ℚ := 1 + (consonants / char_count - 1 / 2) * (1 / 5)
  base_weight * consonant_weight

/-- Inner loop of `create_word_mapping` over one entry's words, threading
`current_time`; emits one `WordMapping` per word. -/
def mapEntryWords (entry_start : ℚ) (entry_duration : ℚ) (total_weight : ℚ) (total_words : ℕ) :
    ℕ → ℚ → List String → List WordMapping
  | _, _, [] => []
  | i, current_time, w :: ws =>
    let weight := estimate_word_duration w
    let word_duration := (weight / total_weight) * entry_duration
    { word := w, entry_start := entry_start, word_start := current_time,
      duration := word_duration, total_words := total_words, position := i, weight := weight } ::
      mapEntryWords entry_start entry_duration total_weight total_words (i + 1)
        (current_time + word_duration) ws

/-- `create_word_mapping` (youtube-transcript-api/transcript.py lines 64-106):
per entry, tokenize the text, skip empty entries, weight the words and
distribute the entry duration proportionally. -/
def create_word_mapping (transcript : List PyEntry) : List String × List WordMapping :=
  transcript.foldl
    (fun acc entry =>
      let entry_words := pySplitWs entry.text
      if entry_words.isEmpty then acc
      else
        let total_weight := (entry_words.map estimate_word_duration).sum
        let entry_duration := entry.duration.getD 0
        (acc.1 ++ entry_words,
         acc.2 ++ mapEntryWords entry.start entry_duration total_weight entry_words.length 0
            entry.start entry_words))
    ([], [])

/-- Python list indexing `l[i]` with negative-index wraparound:
`l[i] = l[len + i]` for `i < 0`; out of range is an error (`none`). -/
def pyGet? {α : Type} (l : List α) (i : ℤ) : Option α :=
  if 0 ≤ i then l[i.toNat]?
  else if 0 ≤ (l.length : ℤ) + i then l[((l.length : ℤ) + i).toNat]?
  else none

/-- The fallback end-time estimate of the variant searcher
(youtube-transcript-api/transcript.py lines 144-146): average of the
word-level and entry-level end estimates. -/
def default_end_time (last : WordMapping) : ℚ :=
  ((last.word_start + last.duration) +
    (last.entry_start + last.duration * (last.total_words : ℚ))) / 2

/-- Window scan of `YouTubeTranscriptSearcher.find_phrase_occurrences`
(youtube-transcript-api/transcript.py lines 123-154): windows over the
flattened word list, timing taken from `word_mappings[i]` and
`word_mappings[i+k-1]` (Python indexing, so `i+k-1 = -1` wraps around);
`if duration:` treats both `None` and `0` as absent. -/
def scan (S : Scorer) (sp : String) (k : ℕ) (t : ℚ) (dur : Option ℚ)
    (words : List String) (word_mappings : List WordMapping) :
    List ℕ → Except String (List Occ)
  | [] => .ok []
  | i :: is =>
    let seq := (words.drop i).take k
    let text := pyJoin seq
    let score := best_score S sp text
    if t ≤ score then
      match pyGet? word_mappings (i : ℤ), pyGet? word_mappings ((i : ℤ) + (k : ℤ) - 1) with
      | some first, some last =>
        let start_time := (first.entry_start + first.word_start) / 2
        let end_time :=
          match dur with
          | some d => if d = 0 then default_end_time last else start_time + d
          | none => default_end_time last
        (scan S sp k t dur words word_mappings is).map
          (fun rest => ⟨start_time, end_time, text, score⟩ :: rest)
      | _, _ => .error "IndexError: list index out of range"
    else scan S sp k t dur words word_mappings is

/-- The comparison for `key=lambda x: (-x[3], x[0])`: score descending,
then start time ascending. -/
def leScoreStart (a b : Occ) : Bool :=
  decide (b.score < a.score) || (decide (a.score = b.score) && decide (a.start_s ≤ b.start_s))

/-- `YouTubeTranscriptSearcher.find_phrase_occurrences`
(youtube-transcript-api/transcript.py lines 108-170): score all windows,
sort by `(-score, start)`, filter near-duplicates within 0.5 s, and
return `filtered_occurrences[:1]`. -/
def find_phrase_occurrences (transcript : List PyEntry) (search_phrase : String)
    (similarity_threshold : ℚ) (duration : Option ℚ) (S : Scorer) :
    Except String (List Occ) :=
  let sp := pyLower search_phrase
  let k := (pySplitWs sp).length
  let wm := create_word_mapping transcript
  match scan S sp k similarity_threshold duration wm.1 wm.2
      (List.range (numWindows wm.1.length k)) with
  | .error e => .error e
  | .ok occs => .ok ((filter_overlapping (pySort leScoreStart occs)).take 1)

end YT

/-- A degenerate scorer (all ratios 0), used for concrete witnesses. -/
def scorer0 : Scorer :=
  ⟨fun _ _ => 0, fun _ _ => 0, fun _ _ => 0⟩

/-- A scorer giving 100 on exact equality and 0 otherwise, used for
concrete witnesses. -/
def scorerEq : Scorer :=
  ⟨fun p c => if p = c then 100 else 0, fun _ _ => 0, fun _ _ => 0⟩

/-- The three-word timeline of the spec's Scenario A. -/
def wordsA : List Word :=
  [⟨"hello", 0, 500⟩, ⟨"world", 500, 1000⟩, ⟨"today", 1000, 1500⟩]

-- Equality on modelled Python results is decidable (used by concrete witnesses).
deriving instance DecidableEq for Except

/-! ### Helper lemmas -/

theorem pyReplaceChar_of_not_mem {old new : Char} {cs : List Char} (h : old ∉ cs) :
    pyReplaceChar old new cs = cs := by
  induction cs with
  | nil => rfl
  | cons c cs ih =>
    simp only [pyReplaceChar, List.map_cons] at *
    rw [if_neg (by rintro rfl; exact h (by simp)), ih (by intro hm; exact h (by simp [hm]))]

theorem pySplitChar_append {sep : Char} {a rest : List Char} (ha : sep ∉ a) :
    pySplitChar sep (a ++ sep :: rest) = a :: pySplitChar sep rest := by
  induction a with
  | nil => simp [pySplitChar]
  | cons c a ih =>
    have hc : ¬ c = sep := by rintro rfl; exact ha (by simp)
    have ha' : sep ∉ a := fun hm => ha (by simp [hm])
    have ih' := ih ha'
    simp only [List.cons_append, pySplitChar, if_neg hc]
    simp only [List.append_eq] at ih' ⊢
    rw [ih']

theorem pySplitChar_of_not_mem {sep : Char} {a : List Char} (ha : sep ∉ a) :
    pySplitChar sep a = [a] := by
  induction a with
  | nil => rfl
  | cons c a ih =>
    have hc : ¬ c = sep := by rintro rfl; exact ha (by simp)
    have ha' : sep ∉ a := fun hm => ha (by simp [hm])
    simp only [pySplitChar, if_neg hc, ih ha']

theorem pyInt_digits {cs : List Char} (hne : cs ≠ []) (hd : cs.all Char.isDigit) :
    pyInt cs = some (digitsVal cs) := by
  match cs, hne with
  | c :: cs, _ => simp only [pyInt, digitsVal, if_pos hd]

theorem digit_ne_colon {c : Char} (h : c.isDigit) : c ≠ ':' := by
  rintro rfl; exact absurd h (by decide)

theorem digit_ne_comma {c : Char} (h : c.isDigit) : c ≠ ',' := by
  rintro rfl; exact absurd h (by decide)

theorem not_mem_of_all_digits {sep : Char} {cs : List Char} (hsep : ¬ sep.isDigit)
    (hd : cs.all Char.isDigit) : sep ∉ cs := by
  intro hm
  exact hsep (by simpa using List.all_eq_true.mp hd sep hm)

/-! ### C9: SRT timestamp parsing -/

/-- C9: for every well-formed SRT timestamp `H:MM:SS,mmm` whose four fields
are (non-empty) decimal digit strings, `parse_srt_timestamp` returns exactly
`((H*3600 + M*60 + S)*1000) + mmm` milliseconds. -/
theorem parse_srt_timestamp_correct (h m s x : List Char)
    (hhn : h ≠ []) (hhd : h.all Char.isDigit)
    (hmn : m ≠ []) (hmd : m.all Char.isDigit)
    (hsn : s ≠ []) (hsd : s.all Char.isDigit)
    (hxn : x ≠ []) (hxd : x.all Char.isDigit) :
    parse_srt_timestamp (h ++ ':' :: m ++ ':' :: s ++ ',' :: x) =
      some ((digitsVal h * 3600 + digitsVal m * 60 + digitsVal s) * 1000 + digitsVal x) := by
  have hform : h ++ ':' :: m ++ ':' :: s ++ ',' :: x =
      h ++ ':' :: (m ++ ':' :: (s ++ ',' :: x)) := by simp
  rw [hform]
  have hrep : pyReplaceChar ',' ':' (h ++ ':' :: (m ++ ':' :: (s ++ ',' :: x))) =
      h ++ ':' :: (m ++ ':' :: (s ++ ':' :: x)) := by
    simp only [pyReplaceChar, List.map_append, List.map_cons]
    rw [show List.map (fun c => if c = ',' then ':' else c) h = pyReplaceChar ',' ':' h from rfl,
      show List.map (fun c => if c = ',' then ':' else c) m = pyReplaceChar ',' ':' m from rfl,
      show List.map (fun c => if c = ',' then ':' else c) s = pyReplaceChar ',' ':' s from rfl,
      show List.map (fun c => if c = ',' then ':' else c) x = pyReplaceChar ',' ':' x from rfl]
    rw [pyReplaceChar_of_not_mem (not_mem_of_all_digits (by decide) hhd),
      pyReplaceChar_of_not_mem (not_mem_of_all_digits (by decide) hmd),
      pyReplaceChar_of_not_mem (not_mem_of_all_digits (by decide) hsd),
      pyReplaceChar_of_not_mem (not_mem_of_all_digits (by decide) hxd)]
    simp
  have hsm : ∀ cs : List Char, cs.all Char.isDigit → (':' : Char) ∉ cs := fun cs hcs =>
    not_mem_of_all_digits (by decide) hcs
  have hsplit : pySplitChar ':' (h ++ ':' :: (m ++ ':' :: (s ++ ':' :: x))) = [h, m, s, x] := by
    rw [pySplitChar_append (hsm h hhd), pySplitChar_append (hsm m hmd),
      pySplitChar_append (hsm s hsd), pySplitChar_of_not_mem (hsm x hxd)]
  simp only [parse_srt_timestamp, hrep, hsplit]
  simp only [List.getElem?_cons_zero, List.getElem?_cons_succ, Option.some_bind,
    pyInt_digits hhn hhd, pyInt_digits hmn hmd, pyInt_digits hsn hsd, pyInt_digits hxn hxd]
  exact congrArg some (by ring)

/-- Witness for C9 at the concrete timestamp `1:02:03,456`. -/
theorem parse_srt_timestamp_correct_witness :
    parse_srt_timestamp ('1' :: ':' :: '0' :: '2' :: ':' :: '0' :: '3' :: ',' :: ['4', '5', '6']) =
      some ((digitsVal ['1'] * 3600 + digitsVal ['0', '2'] * 60 + digitsVal ['0', '3']) * 1000 +
        digitsVal ['4', '5', '6']) :=
  parse_srt_timestamp_correct ['1'] ['0', '2'] ['0', '3'] ['4', '5', '6']
    (by decide) (by decide) (by decide) (by decide) (by decide) (by decide) (by decide) (by decide)


/-! ### Caption windower lemmas -/

theorem caption_windows_nil {α : Type} (ws : ℕ) : caption_windows ([] : List α) ws = [] := by
  unfold caption_windows
  have h : (List.length ([] : List α) + ws - 1) / ws = 0 := by
    rcases Nat.eq_zero_or_pos ws with h | h
    · simp [h]
    · simp only [List.length_nil, Nat.zero_add]
      exact Nat.div_eq_of_lt (by omega)
  rw [h]
  rfl

theorem ceil_div_succ {n ws : ℕ} (hn : 1 ≤ n) (hws : 1 ≤ ws) :
    (n + ws - 1) / ws = ((n - ws) + ws - 1) / ws + 1 := by
  have e1 : n + ws - 1 = (n - 1) + ws := by omega
  rw [e1, Nat.add_div_right _ hws]
  rcases le_or_lt n ws with h | h
  · have h0 : n - ws = 0 := by omega
    rw [h0]
    have h1 : (0 + ws - 1) / ws = 0 := Nat.div_eq_of_lt (by omega)
    have h2 : (n - 1) / ws = 0 := Nat.div_eq_of_lt (by omega)
    rw [h1, h2]
  · have e2 : (n - ws) + ws - 1 = (n - ws - 1) + ws := by omega
    rw [e2, Nat.add_div_right _ hws]
    have e3 : n - 1 = (n - ws - 1) + ws := by omega
    rw [e3, Nat.add_div_right _ hws]

theorem caption_windows_cons {α : Type} (x : α) (xs : List α) (ws : ℕ) (hws : 1 ≤ ws) :
    caption_windows (x :: xs) ws =
      ((x :: xs).take ws) :: caption_windows ((x :: xs).drop ws) ws := by
  unfold caption_windows
  have hcnt : ((x :: xs).length + ws - 1) / ws =
      (((x :: xs).drop ws).length + ws - 1) / ws + 1 := by
    rw [List.length_drop]
    exact ceil_div_succ (by simp) hws
  rw [hcnt, List.range_succ_eq_map, List.filterMap_cons]
  have hhead : (if (((x :: xs).drop (0 * ws)).take ws).isEmpty then none
      else some (((x :: xs).drop (0 * ws)).take ws)) = some ((x :: xs).take ws) := by
    obtain ⟨ws', rfl⟩ : ∃ ws', ws = ws' + 1 := ⟨ws - 1, by omega⟩
    simp [List.take_succ_cons]
  simp only [Nat.zero_mul] at hhead ⊢
  simp only [hhead, List.filterMap_map]
  congr 1
  apply List.filterMap_congr
  intro j _
  simp only [Function.comp_apply]
  have e : Nat.succ j * ws = ws + j * ws := by rw [Nat.succ_mul]; ring
  rw [e, ← List.drop_drop]

theorem caption_windows_eq_chunksRec {α : Type} (ws : ℕ) (hws : 1 ≤ ws) :
    ∀ l : List α, caption_windows l ws = chunksRec ws l := by
  have key : ∀ (n : ℕ) (l : List α), l.length ≤ n → caption_windows l ws = chunksRec ws l := by
    intro n
    induction n with
    | zero =>
      intro l hl
      have hnil : l = [] := List.length_eq_zero.mp (by omega)
      subst hnil
      rw [caption_windows_nil, chunksRec]
    | succ n ih =>
      intro l hl
      cases l with
      | nil => rw [caption_windows_nil, chunksRec]
      | cons x xs =>
        rw [caption_windows_cons x xs ws hws, chunksRec]
        have htake : (x :: xs).take ws = x :: xs.take (ws - 1) := by
          obtain ⟨ws', rfl⟩ : ∃ ws', ws = ws' + 1 := ⟨ws - 1, by omega⟩
          simp [List.take_succ_cons]
        have hdrop : (x :: xs).drop ws = xs.drop (ws - 1) := by
          obtain ⟨ws', rfl⟩ : ∃ ws', ws = ws' + 1 := ⟨ws - 1, by omega⟩
          simp [List.drop_succ_cons]
        rw [htake, hdrop]
        refine congrArg _ (ih _ ?_)
        have hd := List.length_drop (ws - 1) xs
        simp only [List.length_cons] at hl
        omega
  exact fun l => key l.length l le_rfl

theorem chunksRec_flatten {α : Type} (ws : ℕ) (hws : 1 ≤ ws) :
    ∀ l : List α, (chunksRec ws l).flatten = l := by
  have key : ∀ (n : ℕ) (l : List α), l.length ≤ n → (chunksRec ws l).flatten = l := by
    intro n
    induction n with
    | zero =>
      intro l hl
      have hnil : l = [] := List.length_eq_zero.mp (by omega)
      subst hnil
      rw [chunksRec]
      rfl
    | succ n ih =>
      intro l hl
      cases l with
      | nil => rw [chunksRec]; rfl
      | cons x xs =>
        rw [chunksRec, List.flatten_cons]
        have hd := List.length_drop (ws - 1) xs
        simp only [List.length_cons] at hl
        rw [ih (xs.drop (ws - 1)) (by omega)]
        simp [List.take_append_drop]
  exact fun l => key l.length l le_rfl

theorem chunksRec_mem {α : Type} (ws : ℕ) (hws : 1 ≤ ws) :
    ∀ l : List α, ∀ c ∈ chunksRec ws l, c ≠ [] ∧ c.length ≤ ws := by
  have key : ∀ (n : ℕ) (l : List α), l.length ≤ n → ∀ c ∈ chunksRec ws l,
      c ≠ [] ∧ c.length ≤ ws := by
    intro n
    induction n with
    | zero =>
      intro l hl
      have hnil : l = [] := List.length_eq_zero.mp (by omega)
      subst hnil
      rw [chunksRec]
      simp
    | succ n ih =>
      intro l hl c hc
      cases l with
      | nil => rw [chunksRec] at hc; exact absurd hc (by simp)
      | cons x xs =>
        rw [chunksRec] at hc
        rcases List.mem_cons.mp hc with rfl | hc'
        · refine ⟨by simp, ?_⟩
          have h1 := List.length_take (ws - 1) xs
          simp only [List.length_cons, h1]
          have h2 : (ws - 1) ⊓ xs.length ≤ ws - 1 := inf_le_left
          omega
        · have hd := List.length_drop (ws - 1) xs
          simp only [List.length_cons] at hl
          exact ih (xs.drop (ws - 1)) (by omega) c hc'
  exact fun l => key l.length l le_rfl

theorem chunksRec_dropLast {α : Type} (ws : ℕ) (hws : 1 ≤ ws) :
    ∀ l : List α, ∀ c ∈ (chunksRec ws l).dropLast, c.length = ws := by
  have key : ∀ (n : ℕ) (l : List α), l.length ≤ n → ∀ c ∈ (chunksRec ws l).dropLast,
      c.length = ws := by
    intro n
    induction n with
    | zero =>
      intro l hl
      have hnil : l = [] := List.length_eq_zero.mp (by omega)
      subst hnil
      rw [chunksRec]
      simp
    | succ n ih =>
      intro l hl c hc
      cases l with
      | nil => rw [chunksRec] at hc; exact absurd hc (by simp)
      | cons x xs =>
        rw [chunksRec] at hc
        by_cases hr : chunksRec ws (xs.drop (ws - 1)) = []
        · rw [hr] at hc
          exact absurd hc (by simp)
        · rw [List.dropLast_cons_of_ne_nil hr] at hc
          rcases List.mem_cons.mp hc with rfl | hc'
          · have hne : xs.drop (ws - 1) ≠ [] := by
              intro h0
              apply hr
              rw [h0, chunksRec]
            have hlen : (xs.drop (ws - 1)).length ≠ 0 :=
              fun h => hne (List.length_eq_zero.mp h)
            have hd := List.length_drop (ws - 1) xs
            have hmin : (ws - 1) ⊓ xs.length = ws - 1 := inf_eq_left.mpr (by omega)
            simp only [List.length_cons, List.length_take, hmin]
            omega
          · have hd := List.length_drop (ws - 1) xs
            simp only [List.length_cons] at hl
            exact ih (xs.drop (ws - 1)) (by omega) c hc'
  exact fun l => key l.length l le_rfl

/-! ### C6: windower partitions the words -/

/-- C6: for every word list and `window_size ≥ 1` the caption windower
partitions the input into consecutive non-overlapping chunks in input order:
flattening the chunks reproduces the input exactly, no chunk is empty, every
chunk has at most `window_size` elements, and every chunk except possibly the
last has exactly `window_size` elements. -/
theorem caption_windows_partition {α : Type} (words : List α) (ws : ℕ) (hws : 1 ≤ ws) :
    (caption_windows words ws).flatten = words ∧
    (∀ c ∈ caption_windows words ws, c ≠ [] ∧ c.length ≤ ws) ∧
    (∀ c ∈ (caption_windows words ws).dropLast, c.length = ws) := by
  rw [caption_windows_eq_chunksRec ws hws]
  exact ⟨chunksRec_flatten ws hws words, chunksRec_mem ws hws words,
    chunksRec_dropLast ws hws words⟩

/-- Witness for C6 on the spec's Scenario D shape: 7 words, window size 5. -/
theorem caption_windows_partition_witness :
    (caption_windows [0, 1, 2, 3, 4, 5, 6] 5).flatten = [0, 1, 2, 3, 4, 5, 6] ∧
    (∀ c ∈ caption_windows [0, 1, 2, 3, 4, 5, 6] 5, c ≠ [] ∧ c.length ≤ 5) ∧
    (∀ c ∈ (caption_windows [0, 1, 2, 3, 4, 5, 6] 5).dropLast, c.length = 5) :=
  caption_windows_partition [0, 1, 2, 3, 4, 5, 6] 5 (by decide)

/-! ### C8: empty timeline and the windower -/

/-- C8 counterexample: on an empty Word Timeline the implemented windower
(`process_video_with_highlights`) does not return an empty caption-window
sequence; it raises `IndexError` reading `words[0]['start']` before the
chunk loop (the handler catches it and returns `False`). -/
theorem process_schedule_empty_counterexample :
    process_schedule ([] : List Word) 5 = .error "IndexError: list index out of range" := rfl

/-- C8 amended: the chunk-partitioning loop itself emits no caption window
for an empty timeline, but the enclosing windower function fails with
`IndexError` instead of returning that empty sequence. -/
theorem process_schedule_empty_amended (ws : ℕ) :
    caption_windows ([] : List Word) ws = [] ∧
    process_schedule ([] : List Word) ws = .error "IndexError: list index out of range" :=
  ⟨caption_windows_nil ws, rfl⟩

/-! ### C5: no input validation in the fuzzy searcher -/

/-- C5 counterexample: on an empty Word Timeline `find_phrase_occurrences`
silently returns the empty occurrence list; it raises no InvalidInput (or
any other) error. -/
theorem find_phrase_occurrences_empty_counterexample :
    find_phrase_occurrences scorer0 [] "hello" 80 = .ok [] := rfl

/-- C5 amended: `find_phrase_occurrences` performs no input validation:
for an empty Word Timeline and any query with at least one token it returns
`ok []` for every scorer and every threshold, including thresholds outside
`[0, 100]`. -/
theorem find_phrase_occurrences_no_validation (S : Scorer) (q : String) (t : ℚ)
    (hk : 1 ≤ (pySplitWs (pyLower q)).length) :
    find_phrase_occurrences S [] q t = .ok [] := by
  have h0 : numWindows (List.length ([] : List Word)) (pySplitWs (pyLower q)).length = 0 := by
    unfold numWindows
    simp only [List.length_nil]
    omega
  simp only [find_phrase_occurrences, h0]
  rfl

/-- Witness for C5 amended: query `"hello"`, threshold `-5` (outside
`[0, 100]`), empty timeline. -/
theorem find_phrase_occurrences_no_validation_witness :
    1 ≤ (pySplitWs (pyLower "hello")).length ∧
    find_phrase_occurrences scorer0 [] "hello" (-5) = .ok [] :=
  ⟨by decide, find_phrase_occurrences_no_validation scorer0 "hello" (-5) (by decide)⟩

/-! ### C1: the fuzzy candidate scan matches the spec -/

theorem toNat_ofNat_valid (n : ℕ) (h : n.isValidChar) : (Char.ofNat n).toNat = n := by
  simp [Char.ofNat, dif_pos h, Char.ofNatAux, Char.toNat, UInt32.toNat]

theorem toLower_idem (c : Char) : c.toLower.toLower = c.toLower := by
  simp only [Char.toLower]
  by_cases h : c.toNat ≥ 65 ∧ c.toNat ≤ 90
  · rw [if_pos h]
    have hv : (c.toNat + 32).isValidChar := Or.inl (by omega)
    have ht : (Char.ofNat (c.toNat + 32)).toNat = c.toNat + 32 := toNat_ofNat_valid _ hv
    rw [ht, if_neg (by omega)]
  · rw [if_neg h, if_neg h]

theorem pyLower_idem (s : String) : pyLower (pyLower s) = pyLower s := by
  unfold pyLower
  show (⟨(s.data.map Char.toLower).map Char.toLower⟩ : String) = ⟨s.data.map Char.toLower⟩
  apply congrArg String.mk
  rw [List.map_map]
  exact List.map_congr_left (fun c _ => toLower_idem c)

theorem scanWindows_eq_filterMap (S : Scorer) (sp : String) (k : ℕ) (t : ℚ) (words : List Word)
    (hk : 1 ≤ k) :
    ∀ idxs : List ℕ, (∀ i ∈ idxs, i + k ≤ words.length) →
    scanWindows S sp k t words idxs = .ok (idxs.filterMap (fun i =>
      match words[i]?, words[i + k - 1]? with
      | some w0, some wl =>
        let text := pyJoin (((words.drop i).take k).map Word.text)
        let score := best_score S sp text
        if t ≤ score then some ⟨(w0.start : ℚ) / 1000, (wl.end_ : ℚ) / 1000, text, score⟩
        else none
      | _, _ => none)) := by
  intro idxs
  induction idxs with
  | nil => intro _; rfl
  | cons i is ih =>
    intro hb
    have hik : i + k ≤ words.length := hb i (by simp)
    have hi : i < words.length := by omega
    have hik1 : i + k - 1 < words.length := by omega
    have hlen : ((words.drop i).take k).length = k := by
      rw [List.length_take, List.length_drop]
      exact inf_eq_left.mpr (by omega)
    have hhead : ((words.drop i).take k).head? = words[i]? := by
      rw [List.head?_eq_getElem?, List.getElem?_take, if_pos (by omega), List.getElem?_drop]
      norm_num
    have hlast : ((words.drop i).take k).getLast? = words[i + k - 1]? := by
      rw [List.getLast?_eq_getElem?, hlen, List.getElem?_take, if_pos (by omega),
        List.getElem?_drop]
      congr 1
      omega
    have hw0 : words[i]? = some words[i] := List.getElem?_eq_getElem hi
    have hwl : words[i + k - 1]? = some words[i + k - 1] := List.getElem?_eq_getElem hik1
    have hrest := ih (fun j hj => hb j (by simp [hj]))
    simp only [scanWindows, List.filterMap_cons, hhead, hlast, hw0, hwl]
    by_cases ht : t ≤ best_score S sp (pyJoin (((words.drop i).take k).map Word.text))
    · rw [if_pos ht, if_pos ht, hrest]
      rfl
    · rw [if_neg ht, if_neg ht, hrest]

/-- C1: for every scorer, Word Timeline, query tokenizing to `k ≥ 1` tokens,
and threshold, the fuzzy searcher considers exactly one candidate per window
`i = 0 .. len(words)-k` — text the single-space join of the window's word
texts, score the maximum of the three similarity ratios on the lower-cased
query and candidate, `start_s = words[i].start/1000`,
`end_s = words[i+k-1].end/1000` — and the qualifying candidates before
deduplication are exactly those with score ≥ threshold (`spec_candidates`);
the final return value is the overlap-filtered stable score-descending sort
of that list. -/
theorem find_phrase_occurrences_matches_spec (S : Scorer) (words : List Word) (query : String)
    (t : ℚ) (hk : 1 ≤ (pySplitWs (pyLower query)).length) :
    scanWindows S (pyLower query) (pySplitWs (pyLower query)).length t words
      (List.range (numWindows words.length (pySplitWs (pyLower query)).length)) =
      .ok (spec_candidates S words query t) ∧
    find_phrase_occurrences S words query t =
      .ok (filter_overlapping (pySort leScore (spec_candidates S words query t))) := by
  set k := (pySplitWs (pyLower query)).length with hkdef
  have hbound : ∀ i ∈ List.range (numWindows words.length k), i + k ≤ words.length := by
    intro i hi
    have := List.mem_range.mp hi
    unfold numWindows at this
    omega
  have hscan := scanWindows_eq_filterMap S (pyLower query) k t words hk
    (List.range (numWindows words.length k)) hbound
  have hspec : (List.range (numWindows words.length k)).filterMap (fun i =>
      match words[i]?, words[i + k - 1]? with
      | some w0, some wl =>
        let text := pyJoin (((words.drop i).take k).map Word.text)
        let score := best_score S (pyLower query) text
        if t ≤ score then some ⟨(w0.start : ℚ) / 1000, (wl.end_ : ℚ) / 1000, text, score⟩
        else none
      | _, _ => none) = spec_candidates S words query t := by
    unfold spec_candidates
    apply List.filterMap_congr
    intro i _
    cases hw0 : words[i]? with
    | none => rfl
    | some w0 =>
      cases hwl : words[i + k - 1]? with
      | none => rfl
      | some wl =>
        simp only [best_score, compare_phrases, pyLower_idem]
  have h1 : scanWindows S (pyLower query) k t words
      (List.range (numWindows words.length k)) = .ok (spec_candidates S words query t) := by
    rw [hscan, hspec]
  refine ⟨h1, ?_⟩
  simp only [find_phrase_occurrences]
  rw [← hkdef, h1]

/-- Witness for C1: Scenario A's timeline with query `"hello world"` and
the equality scorer. -/
theorem find_phrase_occurrences_matches_spec_witness :
    scanWindows scorerEq (pyLower "hello world") (pySplitWs (pyLower "hello world")).length 80
      wordsA (List.range (numWindows wordsA.length (pySplitWs (pyLower "hello world")).length)) =
      .ok (spec_candidates scorerEq wordsA "hello world" 80) ∧
    find_phrase_occurrences scorerEq wordsA "hello world" 80 =
      .ok (filter_overlapping (pySort leScore (spec_candidates scorerEq wordsA "hello world" 80))) :=
  find_phrase_occurrences_matches_spec scorerEq wordsA "hello world" 80 (by decide)

/-! ### C2: segment resolver -/

theorem best_segment_inner_none (words : List Word) (s : Occ) :
    ∀ es : List Occ, (best_segment_inner words s es = none ↔ ∀ e ∈ es, ¬ s.start_s < e.end_s) := by
  intro es
  induction es with
  | nil => simp [best_segment_inner]
  | cons e es ih =>
    simp only [best_segment_inner]
    by_cases h : s.start_s < e.end_s
    · rw [if_pos h]
      exact iff_of_false (by simp) (fun hall => hall e (by simp) h)
    · rw [if_neg h, ih]
      constructor
      · intro hall e' he'
        rcases List.mem_cons.mp he' with rfl | hm
        · exact h
        · exact hall e' hm
      · intro hall e' he'
        exact hall e' (by simp [he'])

theorem best_segment_inner_some (words : List Word) (s : Occ) :
    ∀ (es : List Occ) (seg : Occ), best_segment_inner words s es = some seg →
      ∃ (j : ℕ) (e : Occ), es[j]? = some e ∧ s.start_s < e.end_s ∧
        (∀ (j' : ℕ) (e' : Occ), j' < j → es[j']? = some e' → ¬ s.start_s < e'.end_s) ∧
        seg = get_segment words s e := by
  intro es
  induction es with
  | nil => intro seg h; exact absurd h (by simp [best_segment_inner])
  | cons e es ih =>
    intro seg h
    simp only [best_segment_inner] at h
    by_cases hce : s.start_s < e.end_s
    · rw [if_pos hce] at h
      refine ⟨0, e, List.getElem?_cons_zero, hce, ?_, (Option.some.inj h).symm⟩
      intro j' e' hj' _
      omega
    · rw [if_neg hce] at h
      obtain ⟨j, e', hj, hlt, hmin, hseg⟩ := ih seg h
      refine ⟨j + 1, e', by simpa using hj, hlt, ?_, hseg⟩
      intro j' e'' hj' hj'e
      cases j' with
      | zero =>
        rw [List.getElem?_cons_zero] at hj'e
        exact (Option.some.inj hj'e) ▸ hce
      | succ j'' =>
        rw [List.getElem?_cons_succ] at hj'e
        exact hmin j'' e'' (by omega) hj'e

theorem get_best_segment_none (words : List Word) :
    ∀ ss es : List Occ, (get_best_segment words ss es = none ↔
      ∀ s ∈ ss, ∀ e ∈ es, ¬ s.start_s < e.end_s) := by
  intro ss es
  induction ss with
  | nil => simp [get_best_segment]
  | cons s ss ih =>
    simp only [get_best_segment]
    cases hinner : best_segment_inner words s es with
    | some seg =>
      refine iff_of_false (by simp) ?_
      intro hall
      rw [(best_segment_inner_none words s es).mpr (fun e he => hall s (by simp) e he)] at hinner
      exact Option.noConfusion hinner
    | none =>
      rw [ih]
      have hs := (best_segment_inner_none words s es).mp hinner
      constructor
      · intro hall s' hs' e he
        rcases List.mem_cons.mp hs' with rfl | hm
        · exact hs e he
        · exact hall s' hm e he
      · intro hall s' hs' e he
        exact hall s' (by simp [hs']) e he

theorem get_best_segment_some (words : List Word) :
    ∀ (ss es : List Occ) (seg : Occ), get_best_segment words ss es = some seg →
      ∃ (i j : ℕ) (s e : Occ), ss[i]? = some s ∧ es[j]? = some e ∧ s.start_s < e.end_s ∧
        (∀ (i' : ℕ) (s' : Occ), i' < i → ss[i']? = some s' →
          ∀ e' ∈ es, ¬ s'.start_s < e'.end_s) ∧
        (∀ (j' : ℕ) (e' : Occ), j' < j → es[j']? = some e' → ¬ s.start_s < e'.end_s) ∧
        seg = get_segment words s e := by
  intro ss
  induction ss with
  | nil => intro es seg h; exact absurd h (by simp [get_best_segment])
  | cons s ss ih =>
    intro es seg h
    simp only [get_best_segment] at h
    cases hinner : best_segment_inner words s es with
    | some seg' =>
      rw [hinner] at h
      obtain ⟨j, e, hj, hlt, hmin, hseg⟩ := best_segment_inner_some words s es seg' hinner
      exact ⟨0, j, s, e, List.getElem?_cons_zero, hj, hlt,
        fun i' s' hi' _ => absurd hi' (by omega), hmin, (Option.some.inj h) ▸ hseg⟩
    | none =>
      rw [hinner] at h
      obtain ⟨i, j, s', e, hi, hj, hlt, houter, hmin, hseg⟩ := ih es seg h
      refine ⟨i + 1, j, s', e, by simpa using hi, hj, hlt, ?_, hmin, hseg⟩
      intro i' s'' hi' hie e' he'
      cases i' with
      | zero =>
        rw [List.getElem?_cons_zero] at hie
        have hes : s = s'' := Option.some.inj hie
        exact (best_segment_inner_none words s'' es).mp (hes ▸ hinner) e' he'
      | succ i'' =>
        rw [List.getElem?_cons_succ] at hie
        exact houter i'' s'' (by omega) hie e' he'

/-- C2: for every scorer, Word Timeline, anchor texts and threshold, with
`ss` / `es` the occurrence lists returned for the two anchors:
(i) if either list is empty the resolver returns `none`;
(ii) any returned segment comes from the first pair — iterating
start-occurrences in their returned order and, inside each, end-occurrences
in their returned order — with `end_occurrence.end_s > start_occurrence.start_s`,
and carries `start_s` from the start occurrence, `end_s` from the end
occurrence (hence `end_s > start_s`), text the single-space join of all
words whose `start` lies in `[start_s*1000, end_s*1000]`, and score the
average of the two scores;
(iii) the resolver returns `none` exactly when either list is empty or no
pair is compatible. -/
theorem find_text_segment_characterization (S : Scorer) (words : List Word) (a b : String)
    (t : ℚ) (ss es : List Occ)
    (hs : find_phrase_occurrences S words a t = .ok ss)
    (he : find_phrase_occurrences S words b t = .ok es) :
    ((ss = [] ∨ es = []) → find_text_segment S words a b t = .ok none) ∧
    (∀ seg, find_text_segment S words a b t = .ok (some seg) →
      ∃ (i j : ℕ) (s e : Occ), ss[i]? = some s ∧ es[j]? = some e ∧
        s.start_s < e.end_s ∧
        (∀ (i' : ℕ) (s' : Occ), i' < i → ss[i']? = some s' →
          ∀ e' ∈ es, ¬ s'.start_s < e'.end_s) ∧
        (∀ (j' : ℕ) (e' : Occ), j' < j → es[j']? = some e' → ¬ s.start_s < e'.end_s) ∧
        seg = get_segment words s e ∧
        seg.start_s = s.start_s ∧ seg.end_s = e.end_s ∧ seg.start_s < seg.end_s ∧
        seg.text = pyJoin ((words.filter fun w =>
          decide (s.start_s * 1000 ≤ (w.start : ℚ)) &&
            decide ((w.start : ℚ) ≤ e.end_s * 1000)).map Word.text) ∧
        seg.score = (s.score + e.score) / 2) ∧
    (find_text_segment S words a b t = .ok none ↔
      (ss = [] ∨ es = [] ∨ ∀ s ∈ ss, ∀ e ∈ es, ¬ s.start_s < e.end_s)) := by
  have hdef : find_text_segment S words a b t =
      if ss.isEmpty || es.isEmpty then .ok none else .ok (get_best_segment words ss es) := by
    unfold find_text_segment
    rw [hs, he]
  refine ⟨?_, ?_, ?_⟩
  · intro hempty
    rw [hdef, if_pos ?_]
    rcases hempty with h | h <;> simp [h]
  · intro seg hseg
    rw [hdef] at hseg
    by_cases hempty : (ss.isEmpty || es.isEmpty) = true
    · rw [if_pos hempty] at hseg
      exact absurd (Except.ok.inj hseg) (by simp)
    · rw [if_neg hempty] at hseg
      have hbest : get_best_segment words ss es = some seg := Except.ok.inj hseg
      obtain ⟨i, j, s, e, hi, hj, hlt, houter, hmin, hseg'⟩ :=
        get_best_segment_some words ss es seg hbest
      subst hseg'
      exact ⟨i, j, s, e, hi, hj, hlt, houter, hmin, rfl, rfl, rfl, hlt, rfl, rfl⟩
  · rw [hdef]
    by_cases hempty : (ss.isEmpty || es.isEmpty) = true
    · rw [if_pos hempty]
      refine iff_of_true rfl ?_
      rcases Bool.or_eq_true_iff.mp hempty with h | h
      · exact Or.inl (List.isEmpty_iff.mp h)
      · exact Or.inr (Or.inl (List.isEmpty_iff.mp h))
    · rw [if_neg hempty]
      have hne : ¬ ss = [] ∧ ¬ es = [] := by
        rw [Bool.or_eq_true_iff] at hempty
        push_neg at hempty
        exact ⟨fun h => hempty.1 (by simp [h]), fun h => hempty.2 (by simp [h])⟩
      constructor
      · intro hok
        exact Or.inr (Or.inr ((get_best_segment_none words ss es).mp (Except.ok.inj hok)))
      · intro hall
        rcases hall with h | h | h
        · exact absurd h hne.1
        · exact absurd h hne.2
        · rw [(get_best_segment_none words ss es).mpr h]

/-- Witness for C2 with the all-zero scorer (both anchor searches return the
empty occurrence list); the theorem's third component is instantiated. -/
theorem find_text_segment_characterization_witness :
    find_text_segment scorer0 wordsA "hello" "today" 80 = .ok none ↔
      (([] : List Occ) = [] ∨ ([] : List Occ) = [] ∨
        ∀ s ∈ ([] : List Occ), ∀ e ∈ ([] : List Occ), ¬ s.start_s < e.end_s) :=
  (find_text_segment_characterization scorer0 wordsA "hello" "today" 80 [] []
    (by decide) (by decide)).2.2

/-! ### Sorting and deduplication lemmas (C3, C4) -/

theorem mem_insort (le : Occ → Occ → Bool) (x : Occ) :
    ∀ (l : List Occ) (z : Occ), z ∈ insort le x l ↔ z = x ∨ z ∈ l := by
  intro l
  induction l with
  | nil => intro z; simp [insort]
  | cons y ys ih =>
    intro z
    simp only [insort]
    by_cases h : le y x
    · rw [if_pos h]
      simp only [List.mem_cons, ih]
      tauto
    · rw [if_neg h]
      simp only [List.mem_cons]

theorem insort_sorted (x : Occ) :
    ∀ {l : List Occ}, l.Pairwise (fun a b => b.score ≤ a.score) →
      (insort leScore x l).Pairwise (fun a b => b.score ≤ a.score) := by
  intro l
  induction l with
  | nil => intro _; simp [insort]
  | cons y ys ih =>
    intro hl
    rcases List.pairwise_cons.mp hl with ⟨hy, hys⟩
    by_cases h : leScore y x
    · rw [insort, if_pos h]
      refine List.pairwise_cons.mpr ⟨?_, ih hys⟩
      intro z hz
      rcases (mem_insort leScore x ys z).mp hz with rfl | hzys
      · exact of_decide_eq_true h
      · exact hy z hzys
    · rw [insort, if_neg h]
      have hxy : y.score < x.score := by
        have := of_decide_eq_false (Bool.of_not_eq_true h)
        exact lt_of_not_le this
      refine List.pairwise_cons.mpr ⟨?_, hl⟩
      intro z hz
      rcases List.mem_cons.mp hz with rfl | hzys
      · exact le_of_lt hxy
      · exact le_trans (hy z hzys) (le_of_lt hxy)

theorem pySort_sorted (l : List Occ) :
    (pySort leScore l).Pairwise (fun a b => b.score ≤ a.score) := by
  have key : ∀ (xs acc : List Occ), acc.Pairwise (fun a b => b.score ≤ a.score) →
      (xs.foldl (fun a x => insort leScore x a) acc).Pairwise (fun a b => b.score ≤ a.score) := by
    intro xs
    induction xs with
    | nil => intro acc hacc; exact hacc
    | cons x xs ih =>
      intro acc hacc
      simp only [List.foldl_cons]
      exact ih _ (insort_sorted x hacc)
  exact key l [] (by simp)

theorem filter_overlapping_invariant :
    ∀ input acc : List Occ,
      input.Pairwise (fun a b => b.score ≤ a.score) →
      acc.Pairwise (fun a b => (1 / 2 : ℚ) ≤ |a.start_s - b.start_s| ∧ b.score ≤ a.score) →
      (∀ a ∈ acc, ∀ x ∈ input, x.score ≤ a.score) →
      (input.foldl (fun filtered occ =>
          if similar_exists filtered occ then filtered else filtered ++ [occ]) acc).Pairwise
        (fun a b => (1 / 2 : ℚ) ≤ |a.start_s - b.start_s| ∧ b.score ≤ a.score) := by
  intro input
  induction input with
  | nil => intro acc _ hacc _; exact hacc
  | cons occ rest ih =>
    intro acc hsorted hacc hdom
    rcases List.pairwise_cons.mp hsorted with ⟨hocc, hrest⟩
    simp only [List.foldl_cons]
    by_cases hsim : similar_exists acc occ
    · rw [if_pos hsim]
      exact ih acc hrest hacc (fun a ha x hx => hdom a ha x (by simp [hx]))
    · rw [if_neg hsim]
      apply ih (acc ++ [occ]) hrest
      · rw [List.pairwise_append]
        refine ⟨hacc, by simp, ?_⟩
        intro a ha b hb
        obtain rfl : b = occ := List.mem_singleton.mp hb
        have hscore : b.score ≤ a.score := hdom a ha b (by simp)
        have hsep : ¬ |a.start_s - b.start_s| < 1 / 2 := by
          intro habs
          apply hsim
          unfold similar_exists
          rw [List.any_eq_true]
          refine ⟨a, ha, ?_⟩
          rw [Bool.and_eq_true, decide_eq_true_iff, decide_eq_true_iff]
          exact ⟨habs, hscore⟩
        exact ⟨le_of_not_lt hsep, hscore⟩
      · intro a ha x hx
        rcases List.mem_append.mp ha with ha' | ha'
        · exact hdom a ha' x (by simp [hx])
        · rw [List.mem_singleton.mp ha']
          exact hocc x hx

/-- C4: any two distinct occurrences returned by the fuzzy searcher have
start times at least 0.5 s apart, and the output is in score-descending
order: the returned list is pairwise separated by at least 0.5 s, with every
earlier element's score at least every later element's. -/
theorem find_phrase_occurrences_dedup_invariant (S : Scorer) (words : List Word)
    (query : String) (t : ℚ) (l : List Occ)
    (h : find_phrase_occurrences S words query t = .ok l) :
    l.Pairwise (fun a b => (1 / 2 : ℚ) ≤ |a.start_s - b.start_s| ∧ b.score ≤ a.score) := by
  simp only [find_phrase_occurrences] at h
  set r := scanWindows S (pyLower query) (pySplitWs (pyLower query)).length t words
      (List.range (numWindows words.length (pySplitWs (pyLower query)).length)) with hr
  clear_value r
  cases r with
  | error e => exact absurd h (by simp)
  | ok occs =>
    obtain rfl : l = filter_overlapping (pySort leScore occs) := (Except.ok.inj h).symm
    exact filter_overlapping_invariant (pySort leScore occs) [] (pySort_sorted occs)
      (by simp) (by simp)

/-- Witness for C4: a concrete run returning a single occurrence. -/
theorem find_phrase_occurrences_dedup_invariant_witness :
    ([⟨((0 : ℤ) : ℚ) / 1000, ((500 : ℤ) : ℚ) / 1000, "hello", 100⟩] : List Occ).Pairwise
      (fun a b => (1 / 2 : ℚ) ≤ |a.start_s - b.start_s| ∧ b.score ≤ a.score) :=
  find_phrase_occurrences_dedup_invariant scorerEq wordsA "hello" 80
    [⟨((0 : ℤ) : ℚ) / 1000, ((500 : ℤ) : ℚ) / 1000, "hello", 100⟩] rfl

theorem scanWindows_filter (S : Scorer) (sp : String) (k : ℕ) (words : List Word)
    {t1 t2 : ℚ} (h12 : t1 ≤ t2) :
    ∀ (idxs : List ℕ) (q1 : List Occ),
      scanWindows S sp k t1 words idxs = .ok q1 →
      scanWindows S sp k t2 words idxs = .ok (q1.filter fun o => decide (t2 ≤ o.score)) := by
  intro idxs
  induction idxs with
  | nil =>
    intro q1 h
    simp only [scanWindows] at h ⊢
    obtain rfl : q1 = [] := (Except.ok.inj h).symm
    rfl
  | cons i is ih =>
    intro q1 h
    simp only [scanWindows] at h ⊢
    by_cases h2 : t2 ≤ best_score S sp (pyJoin (((words.drop i).take k).map Word.text))
    · have h1 : t1 ≤ best_score S sp (pyJoin (((words.drop i).take k).map Word.text)) :=
        le_trans h12 h2
      rw [if_pos h1] at h
      rw [if_pos h2]
      cases hh : ((words.drop i).take k).head? with
      | none =>
        rw [hh] at h
        exact absurd h (by simp)
      | some w0 =>
        cases hl : ((words.drop i).take k).getLast? with
        | none =>
          rw [hh, hl] at h
          exact absurd h (by simp)
        | some wl =>
          rw [hh, hl] at h
          cases hrec : scanWindows S sp k t1 words is with
          | error e =>
            rw [hrec] at h
            exact absurd h (by simp [Except.map])
          | ok rest =>
            rw [hrec] at h
            simp only [Except.map] at h
            obtain rfl : q1 = _ :: rest := (Except.ok.inj h).symm
            rw [ih rest hrec]
            simp only [Except.map, List.filter_cons]
            rw [if_pos (by simpa using h2)]
    · rw [if_neg h2]
      by_cases h1 : t1 ≤ best_score S sp (pyJoin (((words.drop i).take k).map Word.text))
      · rw [if_pos h1] at h
        cases hh : ((words.drop i).take k).head? with
        | none =>
          rw [hh] at h
          exact absurd h (by simp)
        | some w0 =>
          cases hl : ((words.drop i).take k).getLast? with
          | none =>
            rw [hh, hl] at h
            exact absurd h (by simp)
          | some wl =>
            rw [hh, hl] at h
            cases hrec : scanWindows S sp k t1 words is with
            | error e =>
              rw [hrec] at h
              exact absurd h (by simp [Except.map])
            | ok rest =>
              rw [hrec] at h
              simp only [Except.map] at h
              obtain rfl : q1 = _ :: rest := (Except.ok.inj h).symm
              rw [ih rest hrec]
              simp only [List.filter_cons]
              rw [if_neg (by simpa using h2)]
      · rw [if_neg h1] at h
        exact ih q1 h

theorem filter_insort_neg (le : Occ → Occ → Bool) (P : Occ → Bool) (x : Occ)
    (hx : ¬ P x = true) : ∀ l : List Occ, (insort le x l).filter P = l.filter P := by
  intro l
  induction l with
  | nil => simp [insort, List.filter_cons, hx]
  | cons y ys ih =>
    simp only [insort]
    by_cases h : le y x
    · rw [if_pos h]
      simp only [List.filter_cons, ih]
    · rw [if_neg h]
      simp only [List.filter_cons]
      rw [if_neg hx]

theorem filter_insort_pos (P : Occ → Bool) (x : Occ) (hx : P x = true) :
    ∀ {l : List Occ}, l.Pairwise (fun a b => b.score ≤ a.score) →
      (insort leScore x l).filter P = insort leScore x (l.filter P) := by
  intro l
  induction l with
  | nil => simp [insort, List.filter_cons, hx]
  | cons y ys ih =>
    intro hl
    rcases List.pairwise_cons.mp hl with ⟨hy, hys⟩
    simp only [insort]
    by_cases h : leScore y x
    · rw [if_pos h]
      simp only [List.filter_cons]
      by_cases hPy : P y
      · rw [if_pos hPy, if_pos hPy, ih hys, insort, if_pos h]
      · rw [if_neg hPy, if_neg hPy, ih hys]
    · rw [if_neg h]
      have hyx : y.score < x.score :=
        lt_of_not_le (of_decide_eq_false (Bool.of_not_eq_true h))
      have hall : ∀ z ∈ (y :: ys).filter P, z.score < x.score := by
        intro z hz
        have hzm : z ∈ y :: ys := List.mem_of_mem_filter hz
        rcases List.mem_cons.mp hzm with rfl | hzys
        · exact hyx
        · exact lt_of_le_of_lt (hy z hzys) hyx
      have hlhs : (x :: y :: ys).filter P = x :: (y :: ys).filter P := by
        rw [List.filter_cons, if_pos hx]
      rw [hlhs]
      cases hfl : (y :: ys).filter P with
      | nil => rfl
      | cons z zs =>
        have hzx : ¬ leScore z x = true := by
          have hz := hall z (by rw [hfl]; exact List.mem_cons_self z zs)
          simp only [leScore, decide_eq_true_iff]
          exact not_le.mpr hz
        rw [insort, if_neg hzx]

theorem filter_foldl_insort (P : Occ → Bool) :
    ∀ l acc : List Occ, acc.Pairwise (fun a b => b.score ≤ a.score) →
      (l.foldl (fun a x => insort leScore x a) acc).filter P =
        (l.filter P).foldl (fun a x => insort leScore x a) (acc.filter P) := by
  intro l
  induction l with
  | nil => intro acc _; rfl
  | cons x xs ih =>
    intro acc hacc
    simp only [List.foldl_cons, List.filter_cons]
    by_cases hPx : P x
    · rw [ih (insort leScore x acc) (insort_sorted x hacc), filter_insort_pos P x hPx hacc,
        if_pos hPx, List.foldl_cons]
    · rw [ih (insort leScore x acc) (insort_sorted x hacc), filter_insort_neg leScore P x hPx,
        if_neg hPx]

theorem filter_pySort (P : Occ → Bool) (l : List Occ) :
    (pySort leScore l).filter P = pySort leScore (l.filter P) := by
  unfold pySort
  rw [filter_foldl_insort P l [] (by simp)]
  rfl

theorem sorted_split (t2 : ℚ) :
    ∀ {l : List Occ}, l.Pairwise (fun a b => b.score ≤ a.score) →
      l = (l.filter fun o => decide (t2 ≤ o.score)) ++
        (l.filter fun o => !decide (t2 ≤ o.score)) := by
  intro l
  induction l with
  | nil => intro _; rfl
  | cons x xs ih =>
    intro hl
    rcases List.pairwise_cons.mp hl with ⟨hx, hxs⟩
    by_cases hP : t2 ≤ x.score
    · rw [List.filter_cons, List.filter_cons, if_pos (by simpa using hP),
        if_neg (by simpa using hP), List.cons_append]
      exact congrArg _ (ih hxs)
    · have hall : ∀ z ∈ xs, ¬ t2 ≤ z.score := fun z hz h' => hP (le_trans h' (hx z hz))
      rw [List.filter_cons, List.filter_cons, if_neg (by simpa using hP),
        if_pos (by simpa using hP)]
      rw [List.filter_eq_nil_iff.mpr (by intro a ha; simpa using hall a ha)]
      rw [List.filter_eq_self.mpr (by intro a ha; simpa using hall a ha)]
      rfl

theorem foldl_dedup_length_le :
    ∀ B acc : List Occ,
      acc.length ≤ (B.foldl (fun filtered occ =>
        if similar_exists filtered occ then filtered else filtered ++ [occ]) acc).length := by
  intro B
  induction B with
  | nil => intro acc; exact le_rfl
  | cons b B ih =>
    intro acc
    simp only [List.foldl_cons]
    by_cases h : similar_exists acc b
    · rw [if_pos h]
      exact ih acc
    · rw [if_neg h]
      exact le_trans (by simp) (ih (acc ++ [b]))

theorem filter_overlapping_append_length (A B : List Occ) :
    (filter_overlapping A).length ≤ (filter_overlapping (A ++ B)).length := by
  unfold filter_overlapping
  rw [List.foldl_append]
  exact foldl_dedup_length_le B _

/-- C3: for a fixed scorer, Word Timeline and query, raising the threshold
never increases the number of returned occurrences, even after the
deduplication pass: if both runs return normally with `t1 ≤ t2`, the second
list is at most as long as the first. -/
theorem find_phrase_occurrences_threshold_monotone (S : Scorer) (words : List Word)
    (query : String) (t1 t2 : ℚ) (l1 l2 : List Occ) (h12 : t1 ≤ t2)
    (h1 : find_phrase_occurrences S words query t1 = .ok l1)
    (h2 : find_phrase_occurrences S words query t2 = .ok l2) :
    l2.length ≤ l1.length := by
  simp only [find_phrase_occurrences] at h1 h2
  set r1 := scanWindows S (pyLower query) (pySplitWs (pyLower query)).length t1 words
      (List.range (numWindows words.length (pySplitWs (pyLower query)).length)) with hr1
  clear_value r1
  cases r1 with
  | error e => exact absurd h1 (by simp)
  | ok q1 =>
    obtain rfl : l1 = filter_overlapping (pySort leScore q1) := (Except.ok.inj h1).symm
    have hscan2 : scanWindows S (pyLower query) (pySplitWs (pyLower query)).length t2 words
        (List.range (numWindows words.length (pySplitWs (pyLower query)).length)) =
        .ok (q1.filter fun o => decide (t2 ≤ o.score)) :=
      scanWindows_filter S (pyLower query) (pySplitWs (pyLower query)).length words h12 _ q1
        hr1.symm
    rw [hscan2] at h2
    obtain rfl : l2 = filter_overlapping (pySort leScore
        (q1.filter fun o => decide (t2 ≤ o.score))) := (Except.ok.inj h2).symm
    rw [← filter_pySort]
    calc (filter_overlapping ((pySort leScore q1).filter fun o =>
            decide (t2 ≤ o.score))).length
        ≤ (filter_overlapping (((pySort leScore q1).filter fun o => decide (t2 ≤ o.score)) ++
            ((pySort leScore q1).filter fun o => !decide (t2 ≤ o.score)))).length :=
          filter_overlapping_append_length _ _
      _ = (filter_overlapping (pySort leScore q1)).length := by
          rw [← sorted_split t2 (pySort_sorted q1)]

/-- Witness for C3: thresholds 50 ≤ 80 on a concrete run (all-zero scorer,
both runs return the empty list). -/
theorem find_phrase_occurrences_threshold_monotone_witness :
    ([] : List Occ).length ≤ ([] : List Occ).length :=
  find_phrase_occurrences_threshold_monotone scorer0 wordsA "hello" 50 80 [] []
    (by decide) rfl rfl

/-! ### C7: the highlight schedule -/

theorem caption_windows_mem_ne_nil {α : Type} {words : List α} {ws : ℕ} {c : List α}
    (hc : c ∈ caption_windows words ws) : c ≠ [] := by
  unfold caption_windows at hc
  obtain ⟨j, _, hcj⟩ := List.mem_filterMap.mp hc
  dsimp only at hcj
  by_cases he : ((words.drop (j * ws)).take ws).isEmpty
  · rw [if_pos he] at hcj
    exact absurd hcj (by simp)
  · rw [if_neg he] at hcj
    obtain rfl := Option.some.inj hcj
    exact fun hnil => he (by simp [hnil])

/-- C7: for a non-empty Word Timeline and `window_size ≥ 1`, the emitted
schedule is relative to `clip_start_ms = words[0].start`: every cue's chunk
display interval is `[(chunk_first.start - clip)/1000, (chunk_last.end -
clip)/1000]` and its word highlight interval is `[(word.start - clip)/1000,
(word.end - clip)/1000]`; and every word of every chunk receives a cue. -/
theorem process_schedule_spec (words : List Word) (ws : ℕ) (w0 : Word)
    (hh : words.head? = some w0) (hws : 1 ≤ ws) :
    ∃ cues, process_schedule words ws = .ok cues ∧
      (∀ cue ∈ cues, ∃ (chunk : List Word) (first last w : Word),
        (caption_windows words ws)[cue.chunk_index]? = some chunk ∧
        chunk.head? = some first ∧ chunk.getLast? = some last ∧
        chunk[cue.word_index]? = some w ∧
        cue.window_start = ((first.start - w0.start : ℤ) : ℚ) / 1000 ∧
        cue.window_end = ((last.end_ - w0.start : ℤ) : ℚ) / 1000 ∧
        cue.word_start = ((w.start - w0.start : ℤ) : ℚ) / 1000 ∧
        cue.word_end = ((w.end_ - w0.start : ℤ) : ℚ) / 1000) ∧
      (∀ (ci : ℕ) (chunk : List Word), (caption_windows words ws)[ci]? = some chunk →
        ∀ (j : ℕ) (w : Word), chunk[j]? = some w →
        ∃ cue ∈ cues, cue.chunk_index = ci ∧ cue.word_index = j) := by
  refine ⟨(caption_windows words ws).enum.flatMap (fun p => cuesOfChunk w0.start p.1 p.2),
    ?_, ?_, ?_⟩
  · unfold process_schedule
    rw [hh]
  · intro cue hcue
    obtain ⟨p, hp, hcp⟩ := List.mem_flatMap.mp hcue
    obtain ⟨ci, chunk⟩ := p
    have hget : (caption_windows words ws)[ci]? = some chunk :=
      List.mk_mem_enum_iff_getElem?.mp hp
    have hne : chunk ≠ [] := caption_windows_mem_ne_nil (List.getElem?_mem hget)
    obtain ⟨first, hfirst⟩ : ∃ f, chunk.head? = some f := by
      cases chunk with
      | nil => exact absurd rfl hne
      | cons a l => exact ⟨a, rfl⟩
    obtain ⟨last, hlast⟩ : ∃ g, chunk.getLast? = some g := by
      cases hgl : chunk.getLast? with
      | some g => exact ⟨g, rfl⟩
      | none => exact absurd (List.getLast?_eq_none_iff.mp hgl) hne
    unfold cuesOfChunk at hcp
    rw [hfirst, hlast] at hcp
    obtain ⟨⟨j, w⟩, hjw, rfl⟩ := List.mem_map.mp hcp
    have hjw' : chunk[j]? = some w := List.mk_mem_enum_iff_getElem?.mp hjw
    exact ⟨chunk, first, last, w, hget, hfirst, hlast, hjw', rfl, rfl, rfl, rfl⟩
  · intro ci chunk hget j w hjw
    have hne : chunk ≠ [] := caption_windows_mem_ne_nil (List.getElem?_mem hget)
    obtain ⟨first, hfirst⟩ : ∃ f, chunk.head? = some f := by
      cases chunk with
      | nil => exact absurd rfl hne
      | cons a l => exact ⟨a, rfl⟩
    obtain ⟨last, hlast⟩ : ∃ g, chunk.getLast? = some g := by
      cases hgl : chunk.getLast? with
      | some g => exact ⟨g, rfl⟩
      | none => exact absurd (List.getLast?_eq_none_iff.mp hgl) hne
    refine ⟨(⟨ci, j, ((first.start - w0.start : ℤ) : ℚ) / 1000,
        ((last.end_ - w0.start : ℤ) : ℚ) / 1000, ((w.start - w0.start : ℤ) : ℚ) / 1000,
        ((w.end_ - w0.start : ℤ) : ℚ) / 1000⟩ : Cue), ?_, rfl, rfl⟩
    apply List.mem_flatMap.mpr
    refine ⟨(ci, chunk), List.mk_mem_enum_iff_getElem?.mpr hget, ?_⟩
    unfold cuesOfChunk
    rw [hfirst, hlast]
    apply List.mem_map.mpr
    exact ⟨(j, w), List.mk_mem_enum_iff_getElem?.mpr hjw, rfl⟩

/-- Witness for C7 on the Scenario A timeline with window size 2. -/
theorem process_schedule_spec_witness :
    ∃ cues, process_schedule wordsA 2 = .ok cues ∧
      (∀ cue ∈ cues, ∃ (chunk : List Word) (first last w : Word),
        (caption_windows wordsA 2)[cue.chunk_index]? = some chunk ∧
        chunk.head? = some first ∧ chunk.getLast? = some last ∧
        chunk[cue.word_index]? = some w ∧
        cue.window_start = ((first.start - 0 : ℤ) : ℚ) / 1000 ∧
        cue.window_end = ((last.end_ - 0 : ℤ) : ℚ) / 1000 ∧
        cue.word_start = ((w.start - 0 : ℤ) : ℚ) / 1000 ∧
        cue.word_end = ((w.end_ - 0 : ℤ) : ℚ) / 1000) ∧
      (∀ (ci : ℕ) (chunk : List Word), (caption_windows wordsA 2)[ci]? = some chunk →
        ∀ (j : ℕ) (w : Word), chunk[j]? = some w →
        ∃ cue ∈ cues, cue.chunk_index = ci ∧ cue.word_index = j) :=
  process_schedule_spec wordsA 2 ⟨"hello", 0, 500⟩ rfl (by decide)

/-! ### C10: the youtube-transcript-api variant returns at most one occurrence -/

/-- C10: `YouTubeTranscriptSearcher.find_phrase_occurrences` truncates its
deduplicated, `(-score, start)`-sorted result to the first element: whenever
it returns normally, the result has at most one occurrence, and it is
exactly `take 1` of the deduplicated sorted window candidates — every
qualifying match beyond the single best one is discarded. -/
theorem yt_find_at_most_one (transcript : List YT.PyEntry) (q : String) (t : ℚ)
    (dur : Option ℚ) (S : Scorer) (l : List Occ)
    (h : YT.find_phrase_occurrences transcript q t dur S = .ok l) :
    l.length ≤ 1 ∧
    ∃ occs, YT.scan S (pyLower q) (pySplitWs (pyLower q)).length t dur
        (YT.create_word_mapping transcript).1 (YT.create_word_mapping transcript).2
        (List.range (numWindows (YT.create_word_mapping transcript).1.length
          (pySplitWs (pyLower q)).length)) = .ok occs ∧
      l = (filter_overlapping (pySort YT.leScoreStart occs)).take 1 := by
  simp only [YT.find_phrase_occurrences] at h
  set r := YT.scan S (pyLower q) (pySplitWs (pyLower q)).length t dur
      (YT.create_word_mapping transcript).1 (YT.create_word_mapping transcript).2
      (List.range (numWindows (YT.create_word_mapping transcript).1.length
        (pySplitWs (pyLower q)).length)) with hr
  clear_value r
  cases r with
  | error e => exact absurd h (by simp)
  | ok occs =>
    obtain rfl : l = (filter_overlapping (pySort YT.leScoreStart occs)).take 1 :=
      (Except.ok.inj h).symm
    exact ⟨List.length_take_le 1 _, occs, rfl, rfl⟩

/-- Witness for C10 on the empty transcript. -/
theorem yt_find_at_most_one_witness : ([] : List Occ).length ≤ 1 :=
  (yt_find_at_most_one [] "hello" 80 none scorer0 [] rfl).1
